import Mathlib

/-!
Shallow embedding of the timeline engine of `app/ui/timeline.py` together
with the data model of `app/models.py`.  Calendar dates are modelled as
`(year, month, day)` triples; datetime comparison and day arithmetic go
through the proleptic Gregorian ordinal `Date.ord` (the day count used by
Python's `datetime`, whole-day resolution).  Pixel coordinates are rational
numbers.
-/

namespace Timeline

/-- `models.Event`: all fields are plain strings / string lists. -/
structure Event where
  title : String
  description : String
  start_date : String
  end_date : String
  texts : List String
  images : List String
  characters : List String
  places : List String
deriving DecidableEq, Repr

/-- `models.Place` (only the name participates in layout). -/
structure Place where
  name : String
  description : String
  texts : List String
  images : List String
deriving DecidableEq, Repr

/-- A calendar date as parsed by `_parse_date` (format `%Y-%m-%d`). -/
structure Date where
  y : Nat
  m : Nat
  d : Nat
deriving DecidableEq, Repr

/-- Gregorian leap-year rule, as in Python's `datetime`. -/
def isLeap (y : Nat) : Bool :=
  (y % 4 == 0 && y % 100 != 0) || y % 400 == 0

/-- Length of month `m` of year `y`. -/
def daysInMonth (y m : Nat) : Nat :=
  if m = 2 then (if isLeap y then 29 else 28)
  else if m = 4 ∨ m = 6 ∨ m = 9 ∨ m = 11 then 30
  else 31

/-- Days in year `y` strictly before month `m`. -/
def daysBeforeMonth (y m : Nat) : Nat :=
  let base := [0, 31, 59, 90, 120, 151, 181, 212, 243, 273, 304, 334].getD (m - 1) 0
  if 2 < m && isLeap y then base + 1 else base

/-- Proleptic Gregorian ordinal of a date (0001-01-01 has ordinal 1), the
day count underlying Python `datetime` comparison and `timedelta` arithmetic. -/
def Date.ord (dt : Date) : Int :=
  let py : Int := (dt.y : Int) - 1
  365 * py + py / 4 - py / 100 + py / 400 + (daysBeforeMonth dt.y dt.m : Int) + (dt.d : Int)

/-- Strip leading and trailing whitespace, as Python's `str.strip()`. -/
def stripChars (cs : List Char) : List Char :=
  ((cs.dropWhile Char.isWhitespace).reverse.dropWhile Char.isWhitespace).reverse

/-- Split a character list on a separator, like Python's `str.split(sep)`
restricted to a one-character separator. -/
def splitChar (sep : Char) : List Char → List (List Char)
  | [] => [[]]
  | c :: cs =>
    let r := splitChar sep cs
    if c = sep then [] :: r
    else
      match r with
      | [] => [[c]]
      | g :: gs => (c :: g) :: gs

/-- All characters are decimal digits (and the list is nonempty). -/
def isDigits (cs : List Char) : Bool :=
  !cs.isEmpty && cs.all Char.isDigit

/-- Numeric value of a digit sequence. -/
def natOfDigits (cs : List Char) : Nat :=
  cs.foldl (fun acc c => acc * 10 + (c.toNat - 48)) 0

/-- `_parse_date`: strip the string, then `datetime.strptime(s, "%Y-%m-%d")`
with failures mapped to `None`.  `strptime` accepts a four-digit year and a
one- or two-digit month and day separated by literal hyphens, with no
leftover characters, and the `datetime` constructor then validates the
triple as a real calendar date (year at least 1). -/
def parseDate (str : String) : Option Date :=
  match splitChar '-' (stripChars str.toList) with
  | [ys, ms, ds] =>
    if isDigits ys && ys.length = 4
        && isDigits ms && (ms.length = 1 ∨ ms.length = 2)
        && isDigits ds && (ds.length = 1 ∨ ds.length = 2) then
      let y := natOfDigits ys
      let m := natOfDigits ms
      let d := natOfDigits ds
      if 1 ≤ y && 1 ≤ m && m ≤ 12 && 1 ≤ d && d ≤ daysInMonth y m then
        some ⟨y, m, d⟩
      else none
    else none
  | _ => none

/-- The level-of-detail bundle returned by `PrettyTimelineView._lod`. -/
structure LOD where
  tick_days : Nat
  date_fmt : String
  thumb : Nat
  title_mode : String
  show_date : Bool
  show_desc : Bool
  max_chips : Nat
  event_w : ℚ
  event_h : ℚ
deriving DecidableEq, Repr

/-- `PrettyTimelineView._lod`: threshold selection on the zoom factor. -/
def lod (z : ℚ) : LOD :=
  if z < 95/100 then
    ⟨28, "%Y-%m", 44, "none", false, false, 0, 220, 72⟩
  else if z < 120/100 then
    ⟨7, "%Y-%m-%d", 52, "abbr3", true, false, 2, 260, 86⟩
  else
    ⟨3, "%Y-%m-%d", 68, "full", true, true, 4, 320, 108⟩

/-- `TimelineTab._within_dates`: the event is kept when its start date is
nonempty, parses, and lies in the inclusive window `[f, t]` (the window
bounds come from the two `QDateEdit` widgets, always valid dates, given
here by their ordinals). -/
def withinDates (f t : Int) (ev : Event) : Bool :=
  if ev.start_date = "" then false
  else
    match parseDate ev.start_date with
    | none => false
    | some s =>
      if s.ord < f then false
      else if t < s.ord then false
      else true

/-- The place test inside `TimelineTab._get_events_filtered`: pass when no
place is selected, or the event's places intersect the selection. -/
def placeOk (selPlaces : List String) (ev : Event) : Bool :=
  if selPlaces.isEmpty then true
  else ev.places.any (fun pn => selPlaces.contains pn)

/-- `TimelineTab._get_events_filtered`: keep events inside the date window
whose places pass the place filter. -/
def getEventsFiltered (events : List Event) (selPlaces : List String)
    (f t : Int) : List Event :=
  events.filter (fun e => withinDates f t e && placeOk selPlaces e)

/-! ## Layout constants of `timeline.py` (pixel values as rationals) -/

def ROW_H : ℚ := 100
def LEFT_MARGIN : ℚ := 180
def TOP_MARGIN : ℚ := 100
def X_STEP_MIN : ℚ := 210

/-- `step_px = max(X_STEP_MIN, 140)` inside `refresh`. -/
def stepPx : ℚ := max X_STEP_MIN 140

/-- `x_for`: horizontal pixel position of the date with ordinal `o`, for a
view whose leftmost date has ordinal `dminOrd` and whose LOD tick interval
is `td` days (`LEFT_MARGIN + days * step_px / tick_days`). -/
def xFor (dminOrd : Int) (td : Nat) (o : Int) : ℚ :=
  LEFT_MARGIN + ((o - dminOrd : Int) : ℚ) * stepPx / (td : ℚ)

/-- Vertical stacking offset of the card with arrival index `idx` in its
`(lane, start-day)` group: `rect.translate(0, (-1)**idx * (min(idx,3)*16))`,
applied only when `idx` is nonzero. -/
def stackOffset (idx : Nat) : ℚ :=
  if idx = 0 then 0 else (-1) ^ idx * ((min idx 3 * 16 : Nat) : ℚ)

/-- Normalisation of the end date inside `refresh`:
`edt = _parse_date(end) or sdt; if edt < sdt: edt = sdt`, as an ordinal. -/
def normEnd (sdt : Date) (endStr : String) : Int :=
  let e0 : Int :=
    match parseDate endStr with
    | none => sdt.ord
    | some edt => edt.ord
  if e0 < sdt.ord then sdt.ord else e0

/-- One positioned event card, with the intermediate quantities of the
placement loop recorded alongside the final rectangle. -/
structure Card where
  evIdx : Nat
  rowIdx : Nat
  sOrd : Int
  eOrd : Int
  xStart : ℚ
  xEnd : ℚ
  band : Option (ℚ × ℚ × ℚ × ℚ)
  left : ℚ
  top : ℚ
  w : ℚ
  h : ℚ
  fillAlpha : Nat
deriving DecidableEq, Repr

def dummyCard : Card :=
  ⟨0, 0, 0, 0, 0, 0, none, 0, 0, 0, 0, 0⟩

/-- The fixed inputs of one layout pass of `PrettyTimelineView.refresh`. -/
structure Ctx where
  L : LOD
  places : List Place
  selChars : List String
  dminOrd : Int
deriving Repr

/-- The body of the placement loop for one `(event, place)` pair, given the
arrival index `idx` of the card in its `(lane, start-day)` group. -/
def mkCard (ctx : Ctx) (evIdx : Nat) (ev : Event) (s e : Int) (row idx : Nat) : Card :=
  let yCenter : ℚ := TOP_MARGIN + (row : ℚ) * ROW_H + ROW_H / 2
  let xS := xFor ctx.dminOrd ctx.L.tick_days s
  let xE := xFor ctx.dminOrd ctx.L.tick_days e
  let band :=
    if s < e then
      let bandLeft := max (LEFT_MARGIN + 6) xS
      let bandRight := max bandLeft xE
      some (bandLeft, yCenter - 6, bandRight - bandLeft, (12 : ℚ))
    else none
  let rectLeft := max (LEFT_MARGIN + 6) xS
  let rectW := if s < e then max ctx.L.event_w (xE - rectLeft) else ctx.L.event_w
  let hasSel := ev.characters.any (fun c => ctx.selChars.contains c)
  let alpha :=
    if ev.characters.isEmpty then 255
    else if ctx.selChars.isEmpty || hasSel then 200 else 90
  ⟨evIdx, row, s, e, xS, xE, band,
    rectLeft, yCenter - ctx.L.event_h / 2 + stackOffset idx, rectW, ctx.L.event_h, alpha⟩

/-- `stack_map`, the per-pass dictionary counting cards per
`(lane, start-day)` key, as an association list with most recent entry first. -/
abbrev StackMap := List ((Nat × Int) × Nat)

def stackGet (m : StackMap) (k : Nat × Int) : Nat :=
  (m.lookup k).getD 0

def stackSet (m : StackMap) (k : Nat × Int) (v : Nat) : StackMap :=
  (k, v) :: m

/-- `for place_name in getattr(ev, "places", []) or [""]`. -/
def effPlaces (ev : Event) : List String :=
  if ev.places.isEmpty then [""] else ev.places

/-- One iteration of the inner place loop: look up the lane of the place
name, and if found emit a card at the group's next stacking index. -/
def placePass (ctx : Ctx) (evIdx : Nat) (ev : Event) (s e : Int)
    (st : StackMap × List Card) (pn : String) : StackMap × List Card :=
  match ctx.places.findIdx? (fun pl => pl.name == pn) with
  | none => st
  | some row =>
    let idx := stackGet st.1 (row, s)
    (stackSet st.1 (row, s) (idx + 1), st.2 ++ [mkCard ctx evIdx ev s e row idx])

/-- One iteration of the outer event loop: skip events without a parseable
start date, otherwise normalise the end date and place one card per
resolvable associated place. -/
def eventPass (ctx : Ctx) (st : StackMap × List Card) (p : Nat × Event) :
    StackMap × List Card :=
  match parseDate p.2.start_date with
  | none => st
  | some sdt =>
    (effPlaces p.2).foldl (placePass ctx p.1 p.2 sdt.ord (normEnd sdt p.2.end_date)) st

/-- The full placement loop of `refresh` over the enumerated event list. -/
def layoutAll (ctx : Ctx) (events : List Event) : List Card :=
  ((events.enum).foldl (eventPass ctx) ([], [])).2

/-- The `dates` list of `refresh`: every parseable start and end date of
every event, in input order, as ordinals. -/
def collectDates (events : List Event) : List Int :=
  events.foldr
    (fun e rest =>
      (match parseDate e.start_date with | some dv => [dv.ord] | none => []) ++
      (match parseDate e.end_date with | some dv => [dv.ord] | none => []) ++ rest)
    []

/-- Result of one `refresh` pass: either the early "No data to display"
placeholder, or the list of positioned event cards. -/
inductive RefreshResult where
  | noData : RefreshResult
  | layout : List Card → RefreshResult
deriving DecidableEq, Repr

/-- `PrettyTimelineView.refresh`: with no places or no parseable dates the
pass draws the placeholder panel and returns; otherwise the visible origin
is the day before the earliest date and every `(event, place)` pair is
placed. -/
def refreshModel (events : List Event) (places : List Place)
    (selChars : List String) (z : ℚ) : RefreshResult :=
  let L := lod z
  if places.isEmpty then .noData
  else
    match collectDates events with
    | [] => .noData
    | dv :: ds =>
      let dminOrd := ds.foldl min dv - 1
      .layout (layoutAll ⟨L, places, selChars, dminOrd⟩ events)

/-- The cards of a refresh pass (empty on the placeholder path). -/
def refreshCards (events : List Event) (places : List Place)
    (selChars : List String) (z : ℚ) : List Card :=
  match refreshModel events places selChars z with
  | .noData => []
  | .layout cs => cs

/-! ## The date-edit dialog -/

def padTwo (n : Nat) : List Char :=
  [Char.ofNat (48 + n / 10 % 10), Char.ofNat (48 + n % 10)]

def padFour (n : Nat) : List Char :=
  [Char.ofNat (48 + n / 1000 % 10), Char.ofNat (48 + n / 100 % 10),
   Char.ofNat (48 + n / 10 % 10), Char.ofNat (48 + n % 10)]

/-- `QDate.toString("yyyy-MM-dd")` for the dates handled here. -/
def formatDate (dt : Date) : String :=
  String.mk (padFour dt.y ++ ['-'] ++ padTwo dt.m ++ ['-'] ++ padTwo dt.d)

/-- The commit step of `PrettyTimelineView._edit_dates`: the user picked
start `s` and end `t` in the dialog; if `t < s` the edit is rejected with a
warning and the event is left unchanged (`none`), otherwise both fields are
overwritten with the chosen dates. -/
def editDatesCommit (ev : Event) (s t : Date) : Option Event :=
  if t.ord < s.ord then none
  else
    some ⟨ev.title, ev.description, formatDate s, formatDate t,
      ev.texts, ev.images, ev.characters, ev.places⟩

/-- Day duration `end - start` of an event's parsed dates. -/
def durOf (ev : Event) : Option Int :=
  match parseDate ev.start_date, parseDate ev.end_date with
  | some s, some e => some (e.ord - s.ord)
  | _, _ => none

/-! ## Concrete fixtures used to instantiate the theorems -/

def castle : Place := ⟨"Castle", "", [], []⟩

/-- A single-day event at the Castle with the given start date string. -/
def evOn (s : String) : Event := ⟨"Event", "", s, "", [], [], [], ["Castle"]⟩

/-- The three events of the week-LOD scenario. -/
def c4events : List Event := [evOn "2024-01-01", evOn "2024-01-02", evOn "2024-01-05"]

def c4cards : List Card := refreshCards c4events [castle] [] 1

def sameDayEv : Event := evOn "2024-01-01"

/-- Six events on the same day in the same place: one stacking group. -/
def c2cards : List Card :=
  refreshCards [sameDayEv, sameDayEv, sameDayEv, sameDayEv, sameDayEv, sameDayEv]
    [castle] [] 1

/-- An event associated only with the character "Bob". -/
def bobEv : Event := ⟨"Bob event", "", "2024-01-02", "", [], [], ["Bob"], ["Castle"]⟩

/-- An event with no associated characters at all. -/
def noCharEv : Event := ⟨"No chars", "", "2024-01-02", "", [], [], [], ["Castle"]⟩

/-- A multi-day event (2024-01-01 to 2024-01-20). -/
def longEv : Event := ⟨"Long", "", "2024-01-01", "2024-01-20", [], [], [], ["Castle"]⟩

def c6card : Card := c4cards.getD 0 dummyCard

def c10card : Card := (refreshCards [longEv] [castle] [] 1).getD 0 dummyCard

/-- An event whose end date precedes its start date. -/
def c7ev : Event := ⟨"Back", "", "2024-01-05", "2024-01-02", [], [], [], ["Castle"]⟩

def c7ctx : Ctx := ⟨lod 1, [castle], [], 738885⟩

/-- The drag-scenario event: 2024-03-01 to 2024-03-03 (duration 2 days). -/
def c9ev : Event := ⟨"March", "", "2024-03-01", "2024-03-03", [], [], [], ["Castle"]⟩

/-- What the dialog commit produces when both picked dates are 2024-03-10. -/
def c9ev2 : Event := ⟨"March", "", "2024-03-10", "2024-03-10", [], [], [], ["Castle"]⟩

section Theorems

attribute [local semireducible] Rat.add Rat.mul Rat.inv Rat.sub

/-- `withinDates` holds exactly when the start date parses into the window. -/
theorem withinDates_iff (f t : Int) (ev : Event) :
    withinDates f t ev = true ↔
      ∃ s : Date, parseDate ev.start_date = some s ∧ f ≤ s.ord ∧ s.ord ≤ t := by
  unfold withinDates
  split
  · rename_i hempty
    rw [hempty]
    simp only [Bool.false_eq_true, false_iff]
    rintro ⟨s, hs, -⟩
    rw [show parseDate "" = none from rfl] at hs
    exact Option.noConfusion hs
  · cases hp : parseDate ev.start_date with
    | none => simp [hp]
    | some s =>
      simp only [hp, Option.some.injEq]
      constructor
      · intro h
        by_cases h1 : s.ord < f
        · rw [if_pos h1] at h
          exact absurd h (by simp)
        · rw [if_neg h1] at h
          by_cases h2 : t < s.ord
          · rw [if_pos h2] at h
            exact absurd h (by simp)
          · exact ⟨s, rfl, by omega, by omega⟩
      · rintro ⟨s', rfl, h1, h2⟩
        rw [if_neg (by omega), if_neg (by omega)]

/-- `placeOk` holds exactly when no place is selected or the selections meet
the event's places. -/
theorem placeOk_iff (selPlaces : List String) (ev : Event) :
    placeOk selPlaces ev = true ↔
      selPlaces = [] ∨ ∃ pn ∈ ev.places, pn ∈ selPlaces := by
  unfold placeOk
  split
  · rename_i h
    simp only [List.isEmpty_iff] at h
    simp [h]
  · rename_i h
    simp only [List.isEmpty_iff] at h
    simp only [List.any_eq_true, List.elem_iff]
    exact ⟨fun hx => Or.inr hx, fun hx => hx.resolve_left h⟩

/-- C1.  The visible-event computation keeps an event if and only if its
start date parses, that date lies in the inclusive window `[f, t]`, and the
place selection is empty or intersects the event's places; membership in
the input list aside, no other condition is involved. -/
theorem C1_filter_correct (events : List Event) (selPlaces : List String)
    (f t : Int) (ev : Event) :
    ev ∈ getEventsFiltered events selPlaces f t ↔
      ev ∈ events ∧
      (∃ s : Date, parseDate ev.start_date = some s ∧ f ≤ s.ord ∧ s.ord ≤ t) ∧
      (selPlaces = [] ∨ ∃ pn ∈ ev.places, pn ∈ selPlaces) := by
  unfold getEventsFiltered
  rw [List.mem_filter, Bool.and_eq_true, withinDates_iff, placeOk_iff]

/-- C1 witness: a concrete event kept by a concrete filter, through the
characterisation. -/
theorem C1_witness :
    bobEv ∈ getEventsFiltered [bobEv] ["Castle"]
      (Date.mk 2024 1 1).ord (Date.mk 2024 1 31).ord :=
  (C1_filter_correct [bobEv] ["Castle"] (Date.mk 2024 1 1).ord
      (Date.mk 2024 1 31).ord bobEv).mpr
    ⟨by decide, ⟨⟨2024, 1, 2⟩, by decide, by decide, by decide⟩,
      Or.inr ⟨"Castle", by decide, by decide⟩⟩

/-- C5.  The LOD selector is monotonic: a larger zoom factor never selects a
configuration with a smaller thumbnail, fewer visible fields or fewer
character chips. -/
theorem C5_lod_monotone (z1 z2 : ℚ) (h : z1 < z2) :
    (lod z1).thumb ≤ (lod z2).thumb ∧
    ((lod z1).show_date = true → (lod z2).show_date = true) ∧
    ((lod z1).show_desc = true → (lod z2).show_desc = true) ∧
    (lod z1).max_chips ≤ (lod z2).max_chips := by
  unfold lod
  split_ifs <;> simp_all <;> linarith

/-- C5 witness: the monotonicity property at the concrete pair `1/2 < 1`. -/
theorem C5_witness :
    (1 : ℚ)/2 < 1 ∧
    ((lod (1/2)).thumb ≤ (lod 1).thumb ∧
      ((lod (1/2)).show_date = true → (lod 1).show_date = true) ∧
      ((lod (1/2)).show_desc = true → (lod 1).show_desc = true) ∧
      (lod (1/2)).max_chips ≤ (lod 1).max_chips) :=
  ⟨by norm_num, C5_lod_monotone (1/2) 1 (by norm_num)⟩

/-- C3 counterexample: with an empty place list and an event carrying a
parseable date (so events do request layout), `refresh` raises no error at
all — it silently returns the "No data to display" placeholder. -/
theorem C3_counterexample :
    collectDates [evOn "2024-01-01"] ≠ [] ∧
    refreshModel [evOn "2024-01-01"] [] [] 1 = RefreshResult.noData := by
  constructor
  · decide
  · rfl

/-- C3 amended: if the place list is empty while events request layout, the
layout pass draws the "No data to display" placeholder and returns early;
no cards are produced and no error is raised. -/
theorem C3_empty_places_placeholder (events : List Event)
    (selChars : List String) (z : ℚ) :
    refreshModel events [] selChars z = RefreshResult.noData := rfl

/-- C2 counterexample: with six same-day events in one place (one stacking
group), the fourth and sixth cards (offset indices 3 and 5, both clamped to
the offset `-48`) are two distinct cards of the same `(lane, start-day)`
group occupying the identical `(x, y)` position. -/
theorem C2_counterexample :
    c2cards.length = 6 ∧
    (c2cards.getD 3 dummyCard).rowIdx = (c2cards.getD 5 dummyCard).rowIdx ∧
    (c2cards.getD 3 dummyCard).sOrd = (c2cards.getD 5 dummyCard).sOrd ∧
    (c2cards.getD 3 dummyCard).left = (c2cards.getD 5 dummyCard).left ∧
    (c2cards.getD 3 dummyCard).top = (c2cards.getD 5 dummyCard).top ∧
    c2cards.getD 3 dummyCard ≠ c2cards.getD 5 dummyCard := by decide

/-- C2 amended: the first card of a group sits at the lane's canonical
center (offset 0) and subsequent cards alternate up/down in steps of 16
with the step count clamped at 3; the offsets are pairwise distinct only
for the first five cards of a group (indices 0..4), so no two of the first
five cards share an `(x, y)` position — from the sixth card on the clamped
offsets repeat and positions coincide. -/
theorem C2_stacking_amended :
    stackOffset 0 = 0 ∧
    (∀ i < 5, ∀ j < 5, i ≠ j → stackOffset i ≠ stackOffset j) ∧
    (∀ i < 5, ∀ j < 5, i ≠ j →
      ¬((c2cards.getD i dummyCard).left = (c2cards.getD j dummyCard).left ∧
        (c2cards.getD i dummyCard).top = (c2cards.getD j dummyCard).top)) := by
  refine ⟨by decide, by decide, by decide⟩

/-- C2 witness: the amended distinctness at the concrete indices 1 and 2. -/
theorem C2_witness : stackOffset 1 ≠ stackOffset 2 :=
  C2_stacking_amended.2.1 1 (by norm_num) 2 (by norm_num) (by norm_num)

/-- C4 counterexample: in the three-event week-LOD scenario the first two
cards overlap — they share the same vertical extent and their horizontal
intervals intersect, because the minimum card width (260 px) exceeds the
30 px/day spacing. -/
theorem C4_counterexample :
    (lod 1).tick_days = 7 ∧
    c4cards.length = 3 ∧
    (c4cards.getD 1 dummyCard).left
      < (c4cards.getD 0 dummyCard).left + (c4cards.getD 0 dummyCard).w ∧
    (c4cards.getD 0 dummyCard).left
      < (c4cards.getD 1 dummyCard).left + (c4cards.getD 1 dummyCard).w ∧
    (c4cards.getD 0 dummyCard).top = (c4cards.getD 1 dummyCard).top ∧
    (c4cards.getD 0 dummyCard).h = (c4cards.getD 1 dummyCard).h := by decide

/-- C4 amended: the three events of 2024-01-01/02/05 at week-tick LOD yield
exactly three cards ordered left-to-right at strictly increasing x, each at
least the minimum card width wide (the cards do overlap horizontally, since
the minimum width exceeds the inter-day spacing). -/
theorem C4_week_scenario :
    (lod 1).tick_days = 7 ∧
    c4cards.length = 3 ∧
    (c4cards.getD 0 dummyCard).left < (c4cards.getD 1 dummyCard).left ∧
    (c4cards.getD 1 dummyCard).left < (c4cards.getD 2 dummyCard).left ∧
    (lod 1).event_w ≤ (c4cards.getD 0 dummyCard).w ∧
    (lod 1).event_w ≤ (c4cards.getD 1 dummyCard).w ∧
    (lod 1).event_w ≤ (c4cards.getD 2 dummyCard).w := by decide

/-- C8 counterexample: an event with no associated characters, visible
under the non-empty selection `["Alice"]` which its (empty) character set
does not intersect, keeps the full fill alpha 255 — the same value as with
no selection at all — so its fill opacity is not reduced. -/
theorem C8_counterexample :
    noCharEv.characters = [] ∧
    noCharEv ∈ getEventsFiltered [noCharEv] []
      (Date.mk 2024 1 1).ord (Date.mk 2024 1 31).ord ∧
    (refreshCards [noCharEv] [castle] ["Alice"] 1).map Card.fillAlpha = [255] ∧
    (refreshCards [noCharEv] [castle] [] 1).map Card.fillAlpha = [255] := by decide

/-- C8 amended: character selection never removes events (the visible-set
computation takes no character input), and any event having at least one
associated character, none of which is selected, renders with fill alpha
90 instead of the normal 200 — dimmed; an event with no characters keeps
its full-opacity fill.  The Bob/Alice scenario is included concretely. -/
theorem C8_dimming :
    (∀ (ctx : Ctx) (evIdx : Nat) (ev : Event) (s e : Int) (row idx : Nat),
      ev.characters ≠ [] → ctx.selChars ≠ [] →
      (∀ ch ∈ ev.characters, ch ∉ ctx.selChars) →
      (mkCard ctx evIdx ev s e row idx).fillAlpha = 90) ∧
    bobEv ∈ getEventsFiltered [bobEv] []
      (Date.mk 2024 1 1).ord (Date.mk 2024 1 31).ord ∧
    (refreshCards [bobEv] [castle] ["Alice"] 1).map Card.fillAlpha = [90] ∧
    (90 : Nat) < 200 := by
  refine ⟨?_, by decide, by decide, by norm_num⟩
  intro ctx evIdx ev s e row idx h1 h2 h3
  unfold mkCard
  simp only
  rw [if_neg (by simpa [List.isEmpty_iff] using h1), if_neg ?_]
  rw [Bool.or_eq_true, not_or]
  refine ⟨by simpa [List.isEmpty_iff] using h2, ?_⟩
  simp only [List.any_eq_true, List.elem_iff, not_exists]
  intro ch
  rw [not_and]
  exact fun hch => h3 ch hch

/-- C8 witness: the dimming rule applied at a concrete card of the
Bob/Alice scenario. -/
theorem C8_witness :
    (mkCard ⟨lod 1, [castle], ["Alice"], 738885⟩ 0 bobEv 738887 738887 0 0).fillAlpha
      = 90 :=
  C8_dimming.1 ⟨lod 1, [castle], ["Alice"], 738885⟩ 0 bobEv 738887 738887 0 0
    (by decide) (by decide) (by decide)

/-- C9 counterexample: the event 2024-03-01..2024-03-03 (duration 2 days)
rescheduled through the date dialog with both picked dates 2024-03-10
commits successfully with duration 0 — the day duration is not preserved. -/
theorem C9_counterexample :
    durOf c9ev = some 2 ∧
    editDatesCommit c9ev ⟨2024, 3, 10⟩ ⟨2024, 3, 10⟩ = some c9ev2 ∧
    durOf c9ev2 = some 0 ∧
    (0 : Int) ≠ 2 := by decide

/-- C9 amended: the interactive date-change surface is a dialog that
commits exactly the two dates the user picked — rejecting the edit only
when the picked end precedes the picked start — so the new duration is
whatever the user chose, with no automatic preservation of the old
duration. -/
theorem C9_commit_behaviour (ev : Event) (s t : Date) :
    (t.ord < s.ord → editDatesCommit ev s t = none) ∧
    (s.ord ≤ t.ord → editDatesCommit ev s t =
      some ⟨ev.title, ev.description, formatDate s, formatDate t,
        ev.texts, ev.images, ev.characters, ev.places⟩) := by
  unfold editDatesCommit
  constructor
  · intro h
    rw [if_pos h]
  · intro h
    rw [if_neg (not_lt.2 h)]

/-- C9 witness: the commit rule applied at concrete dates. -/
theorem C9_witness :
    (Date.mk 2024 3 1).ord ≤ (Date.mk 2024 3 10).ord ∧
    editDatesCommit c9ev ⟨2024, 3, 1⟩ ⟨2024, 3, 10⟩ =
      some ⟨"March", "", "2024-03-01", "2024-03-10", [], [], [], ["Castle"]⟩ := by
  refine ⟨by decide, ?_⟩
  rw [(C9_commit_behaviour c9ev ⟨2024, 3, 1⟩ ⟨2024, 3, 10⟩).2 (by decide)]
  decide

/-! ### Field equations of `mkCard` -/

theorem mkCard_sOrd (ctx : Ctx) (evIdx : Nat) (ev : Event) (s e : Int) (row idx : Nat) :
    (mkCard ctx evIdx ev s e row idx).sOrd = s := rfl

theorem mkCard_eOrd (ctx : Ctx) (evIdx : Nat) (ev : Event) (s e : Int) (row idx : Nat) :
    (mkCard ctx evIdx ev s e row idx).eOrd = e := rfl

theorem mkCard_xStart (ctx : Ctx) (evIdx : Nat) (ev : Event) (s e : Int) (row idx : Nat) :
    (mkCard ctx evIdx ev s e row idx).xStart = xFor ctx.dminOrd ctx.L.tick_days s := rfl

theorem mkCard_xEnd (ctx : Ctx) (evIdx : Nat) (ev : Event) (s e : Int) (row idx : Nat) :
    (mkCard ctx evIdx ev s e row idx).xEnd = xFor ctx.dminOrd ctx.L.tick_days e := rfl

theorem mkCard_left (ctx : Ctx) (evIdx : Nat) (ev : Event) (s e : Int) (row idx : Nat) :
    (mkCard ctx evIdx ev s e row idx).left
      = max (LEFT_MARGIN + 6) (xFor ctx.dminOrd ctx.L.tick_days s) := rfl

theorem mkCard_w (ctx : Ctx) (evIdx : Nat) (ev : Event) (s e : Int) (row idx : Nat) :
    (mkCard ctx evIdx ev s e row idx).w =
      if s < e then
        max ctx.L.event_w
          (xFor ctx.dminOrd ctx.L.tick_days e
            - max (LEFT_MARGIN + 6) (xFor ctx.dminOrd ctx.L.tick_days s))
      else ctx.L.event_w := rfl

theorem mkCard_band (ctx : Ctx) (evIdx : Nat) (ev : Event) (s e : Int) (row idx : Nat) :
    (mkCard ctx evIdx ev s e row idx).band =
      if s < e then
        some (max (LEFT_MARGIN + 6) (xFor ctx.dminOrd ctx.L.tick_days s),
          TOP_MARGIN + (row : ℚ) * ROW_H + ROW_H / 2 - 6,
          max (max (LEFT_MARGIN + 6) (xFor ctx.dminOrd ctx.L.tick_days s))
              (xFor ctx.dminOrd ctx.L.tick_days e)
            - max (LEFT_MARGIN + 6) (xFor ctx.dminOrd ctx.L.tick_days s),
          (12 : ℚ))
      else none := rfl

/-! ### Generic invariants of the placement loop -/

theorem normEnd_ge (sdt : Date) (endStr : String) : sdt.ord ≤ normEnd sdt endStr := by
  unfold normEnd
  dsimp only
  split_ifs with h
  · exact le_refl _
  · exact le_of_not_lt h

/-- Any per-card predicate that holds of every card the inner place loop
can emit for a fixed event holds of all cards in the loop's output. -/
theorem foldl_placePass_forall (ctx : Ctx) (evIdx : Nat) (ev : Event) (s e : Int)
    (P : Card → Prop)
    (hmk : ∀ row idx, P (mkCard ctx evIdx ev s e row idx)) :
    ∀ (pns : List String) (st : StackMap × List Card),
      (∀ c ∈ st.2, P c) →
      ∀ c ∈ (pns.foldl (placePass ctx evIdx ev s e) st).2, P c := by
  intro pns
  induction pns with
  | nil => exact fun st h c hc => h c hc
  | cons pn rest ih =>
    intro st h c hc
    rw [List.foldl_cons] at hc
    refine ih _ ?_ c hc
    intro c' hc'
    rcases hf : ctx.places.findIdx? (fun pl => pl.name == pn) with _ | row <;>
      simp only [placePass, hf] at hc'
    · exact h c' hc'
    · rcases List.mem_append.1 hc' with h1 | h2
      · exact h c' h1
      · rw [List.mem_singleton] at h2
        rw [h2]
        exact hmk row _

/-- Lifting of the previous invariant through the outer event loop. -/
theorem foldl_eventPass_forall (ctx : Ctx) (P : Card → Prop) :
    ∀ (l : List (Nat × Event)) (st : StackMap × List Card),
      (∀ i ev sdt, (i, ev) ∈ l → parseDate ev.start_date = some sdt →
        ∀ row idx, P (mkCard ctx i ev sdt.ord (normEnd sdt ev.end_date) row idx)) →
      (∀ c ∈ st.2, P c) →
      ∀ c ∈ (l.foldl (eventPass ctx) st).2, P c := by
  intro l
  induction l with
  | nil => exact fun st _ h c hc => h c hc
  | cons p rest ih =>
    intro st hl h c hc
    rw [List.foldl_cons] at hc
    refine ih _ (fun i ev sdt hm => hl i ev sdt (List.mem_cons_of_mem _ hm)) ?_ c hc
    intro c' hc'
    rcases hp : parseDate p.2.start_date with _ | sdt <;>
      simp only [eventPass, hp] at hc'
    · exact h c' hc'
    · exact foldl_placePass_forall ctx p.1 p.2 sdt.ord (normEnd sdt p.2.end_date) P
        (hl p.1 p.2 sdt (List.mem_cons_self p rest) hp) _ _ h c' hc'

/-- Any per-card predicate holding of every card an event can emit holds of
every card of the full layout. -/
theorem layoutAll_forall (ctx : Ctx) (events : List Event) (P : Card → Prop)
    (hmk : ∀ i ev sdt, (i, ev) ∈ events.enum →
      parseDate ev.start_date = some sdt →
      ∀ row idx, P (mkCard ctx i ev sdt.ord (normEnd sdt ev.end_date) row idx)) :
    ∀ c ∈ layoutAll ctx events, P c := by
  intro c hc
  exact foldl_eventPass_forall ctx P events.enum ([], []) hmk (by simp) c hc

theorem snd_mem_of_mem_enumFrom {α : Type} {p : Nat × α} :
    ∀ {n : Nat} {l : List α}, p ∈ l.enumFrom n → p.2 ∈ l := by
  intro n l
  induction l generalizing n with
  | nil => intro h; cases h
  | cons a l ih =>
    intro h
    rw [List.enumFrom] at h
    rcases List.mem_cons.1 h with h0 | h'
    · rw [h0]
      exact List.mem_cons_self _ _
    · exact List.mem_cons_of_mem _ (ih h')

theorem collectDates_cons (e : Event) (rest : List Event) :
    collectDates (e :: rest) =
      (match parseDate e.start_date with | some dv => [dv.ord] | none => []) ++
      (match parseDate e.end_date with | some dv => [dv.ord] | none => []) ++
      collectDates rest := rfl

/-- A parsed start date of a listed event appears among the collected
date ordinals. -/
theorem start_mem_collectDates (events : List Event) (ev : Event) (sdt : Date)
    (hm : ev ∈ events) (hp : parseDate ev.start_date = some sdt) :
    sdt.ord ∈ collectDates events := by
  induction events with
  | nil => cases hm
  | cons e rest ih =>
    rw [collectDates_cons]
    rcases List.mem_cons.1 hm with h0 | hm'
    · rw [← h0, hp]
      simp
    · simp only [List.mem_append]
      exact Or.inr (ih hm')

theorem foldl_min_le_init (l : List Int) : ∀ a : Int, l.foldl min a ≤ a := by
  induction l with
  | nil => intro a; simp
  | cons b l ih =>
    intro a
    rw [List.foldl_cons]
    exact le_trans (ih (min a b)) (min_le_left a b)

/-- The fold computing `min(dates)` is a lower bound of every listed date. -/
theorem foldl_min_le (l : List Int) : ∀ (a x : Int), x ∈ a :: l → l.foldl min a ≤ x := by
  induction l with
  | nil =>
    intro a x hx
    rw [List.mem_singleton] at hx
    rw [hx]
    simp
  | cons b l ih =>
    intro a x hx
    rw [List.foldl_cons]
    rcases List.mem_cons.1 hx with h0 | hx'
    · rw [h0]
      exact le_trans (foldl_min_le_init l (min a b)) (min_le_left a b)
    · rcases List.mem_cons.1 hx' with h1 | h2
      · rw [h1]
        exact le_trans (foldl_min_le_init l (min a b)) (min_le_right a b)
      · exact ih (min a b) x (List.mem_cons_of_mem _ h2)

theorem lod_tick_days_bounds (z : ℚ) : 0 < (lod z).tick_days ∧ (lod z).tick_days ≤ 28 := by
  unfold lod
  split_ifs <;> norm_num

theorem lod_event_w_pos (z : ℚ) : 0 < (lod z).event_w := by
  unfold lod
  split_ifs <;> norm_num

/-- For any date at or after the day following the view origin, `x_for`
stays right of the place-label column. -/
theorem xFor_margin (dminOrd : Int) (td : Nat) (o : Int)
    (htd0 : 0 < td) (htd : td ≤ 28) (ho : dminOrd + 1 ≤ o) :
    LEFT_MARGIN + 6 ≤ xFor dminOrd td o := by
  unfold xFor LEFT_MARGIN stepPx X_STEP_MIN
  have htdQ : (0 : ℚ) < (td : ℚ) := by exact_mod_cast htd0
  have htd28 : (td : ℚ) ≤ 28 := by exact_mod_cast htd
  have ho1 : (1 : ℚ) ≤ ((o - dminOrd : Int) : ℚ) := by
    have : (1 : Int) ≤ o - dminOrd := by omega
    exact_mod_cast this
  rw [max_eq_left (by norm_num)]
  have h1 : (210 : ℚ) ≤ ((o - dminOrd : Int) : ℚ) * 210 := by nlinarith
  have h2 : (6 : ℚ) ≤ 210 / (td : ℚ) := by
    rw [le_div_iff₀ htdQ]
    nlinarith
  have h3 : (210 : ℚ) / (td : ℚ) ≤ ((o - dminOrd : Int) : ℚ) * 210 / (td : ℚ) :=
    (div_le_div_iff_of_pos_right htdQ).2 h1
  linarith

/-- Cards only arise on the non-placeholder path, with the view origin one
day before the least collected date. -/
theorem mem_refreshCards (events : List Event) (places : List Place)
    (selChars : List String) (z : ℚ) (c : Card)
    (hc : c ∈ refreshCards events places selChars z) :
    ∃ dv ds, collectDates events = dv :: ds ∧
      c ∈ layoutAll ⟨lod z, places, selChars, ds.foldl min dv - 1⟩ events := by
  simp only [refreshCards, refreshModel] at hc
  by_cases hp : places.isEmpty
  · simp [hp] at hc
  · rcases hd : collectDates events with _ | ⟨dv, ds⟩ <;>
      simp only [hp, Bool.false_eq_true, if_false, hd] at hc
    · simp at hc
    · exact ⟨dv, ds, rfl, hc⟩

/-- C6.  Every placed card's width equals `max(minCardWidth, xEnd - xStart)`:
never below the LOD's minimum width, exactly the minimum for single-day
events, and otherwise growing linearly in the day span. -/
theorem C6_card_width (events : List Event) (places : List Place)
    (selChars : List String) (z : ℚ) (c : Card)
    (hc : c ∈ refreshCards events places selChars z) :
    c.w = max (lod z).event_w (c.xEnd - c.xStart) ∧
    (lod z).event_w ≤ c.w ∧
    (c.eOrd = c.sOrd → c.w = (lod z).event_w) ∧
    c.xEnd - c.xStart
      = ((c.eOrd - c.sOrd : Int) : ℚ) * stepPx / ((lod z).tick_days : ℚ) := by
  obtain ⟨dv, ds, hd, hc⟩ := mem_refreshCards events places selChars z c hc
  refine layoutAll_forall ⟨lod z, places, selChars, ds.foldl min dv - 1⟩ events
    (fun c => c.w = max (lod z).event_w (c.xEnd - c.xStart) ∧
      (lod z).event_w ≤ c.w ∧
      (c.eOrd = c.sOrd → c.w = (lod z).event_w) ∧
      c.xEnd - c.xStart
        = ((c.eOrd - c.sOrd : Int) : ℚ) * stepPx / ((lod z).tick_days : ℚ))
    ?_ c hc
  intro i ev sdt hmem hparse row idx
  have hse : sdt.ord ≤ normEnd sdt ev.end_date := normEnd_ge sdt ev.end_date
  have hsmem : sdt.ord ∈ collectDates events :=
    start_mem_collectDates events ev sdt (snd_mem_of_mem_enumFrom hmem) hparse
  have hmin : ds.foldl min dv ≤ sdt.ord :=
    foldl_min_le ds dv sdt.ord (by rw [← hd]; exact hsmem)
  have htd := lod_tick_days_bounds z
  have hwpos := lod_event_w_pos z
  have hx : LEFT_MARGIN + 6 ≤ xFor (ds.foldl min dv - 1) (lod z).tick_days sdt.ord :=
    xFor_margin _ _ _ htd.1 htd.2 (by omega)
  have htdne : (((lod z).tick_days : Nat) : ℚ) ≠ 0 :=
    Nat.cast_ne_zero.2 (Nat.pos_iff_ne_zero.1 htd.1)
  rcases lt_or_eq_of_le hse with hlt | heq
  · refine ⟨?_, ?_, ?_, ?_⟩
    · rw [mkCard_w, mkCard_xEnd, mkCard_xStart]
      dsimp only
      rw [if_pos hlt, max_eq_right hx]
    · rw [mkCard_w]
      dsimp only
      rw [if_pos hlt]
      exact le_max_left _ _
    · rw [mkCard_eOrd, mkCard_sOrd]
      intro habs
      omega
    · rw [mkCard_xEnd, mkCard_xStart, mkCard_eOrd, mkCard_sOrd]
      dsimp only
      unfold xFor
      push_cast
      field_simp
      ring
  · have hnot : ¬ sdt.ord < normEnd sdt ev.end_date := by omega
    refine ⟨?_, ?_, fun _ => ?_, ?_⟩
    · rw [mkCard_w, mkCard_xEnd, mkCard_xStart]
      dsimp only
      rw [if_neg hnot, ← heq, sub_self, max_eq_left (le_of_lt hwpos)]
    · rw [mkCard_w]
      dsimp only
      rw [if_neg hnot]
    · rw [mkCard_w]
      dsimp only
      rw [if_neg hnot]
    · rw [mkCard_xEnd, mkCard_xStart, mkCard_eOrd, mkCard_sOrd]
      dsimp only
      rw [← heq, sub_self]
      push_cast
      ring

/-- C6 witness: the width law at the first card of the concrete three-event
scenario. -/
theorem C6_witness :
    c6card ∈ refreshCards c4events [castle] [] 1 ∧
    c6card.w = max (lod 1).event_w (c6card.xEnd - c6card.xStart) :=
  ⟨by decide, (C6_card_width c4events [castle] [] 1 c6card (by decide)).1⟩

/-- The inner place loop emits exactly one card per place name resolvable
to a lane, whatever the stacking state. -/
theorem foldl_placePass_length (ctx : Ctx) (evIdx : Nat) (ev : Event) (s e : Int) :
    ∀ (pns : List String) (st : StackMap × List Card),
      ((pns.foldl (placePass ctx evIdx ev s e) st).2).length
        = st.2.length
          + pns.countP
              (fun pn => (ctx.places.findIdx? (fun pl => pl.name == pn)).isSome) := by
  intro pns
  induction pns with
  | nil => intro st; simp
  | cons pn rest ih =>
    intro st
    rw [List.foldl_cons, List.countP_cons, ih]
    rcases hf : ctx.places.findIdx? (fun pl => pl.name == pn) with _ | row <;>
      simp only [placePass, hf, Option.isSome_none, Option.isSome_some,
        List.length_append, List.length_singleton]
    · simp
    · simp
      omega

/-- C7.  An event's end date is normalised, never a reason for exclusion:
an absent or unparseable end, or one earlier than the start, is treated as
the start date itself; and the number of cards the event contributes is
determined by its places alone, independent of the end date. -/
theorem C7_end_normalization (ctx : Ctx) (evIdx : Nat) (ev : Event) (sdt : Date)
    (st : StackMap × List Card) (h : parseDate ev.start_date = some sdt) :
    sdt.ord ≤ normEnd sdt ev.end_date ∧
    (parseDate ev.end_date = none → normEnd sdt ev.end_date = sdt.ord) ∧
    (∀ edt, parseDate ev.end_date = some edt → edt.ord < sdt.ord →
      normEnd sdt ev.end_date = sdt.ord) ∧
    (eventPass ctx st (evIdx, ev)).2.length
      = st.2.length + (effPlaces ev).countP
          (fun pn => (ctx.places.findIdx? (fun pl => pl.name == pn)).isSome) := by
  refine ⟨normEnd_ge sdt ev.end_date, ?_, ?_, ?_⟩
  · intro hn
    unfold normEnd
    rw [hn]
    simp
  · intro edt hedt hlt
    unfold normEnd
    rw [hedt]
    dsimp only
    rw [if_pos hlt]
  · simp only [eventPass, h]
    exact foldl_placePass_length ctx evIdx ev sdt.ord (normEnd sdt ev.end_date)
      (effPlaces ev) st

/-- C7 witness: the normalisation at a concrete event whose end date
precedes its start date, still contributing its one card. -/
theorem C7_witness :
    parseDate c7ev.start_date = some ⟨2024, 1, 5⟩ ∧
    normEnd ⟨2024, 1, 5⟩ c7ev.end_date = (Date.mk 2024 1 5).ord ∧
    (eventPass c7ctx ([], []) (0, c7ev)).2.length = 1 := by
  have h := C7_end_normalization c7ctx 0 c7ev ⟨2024, 1, 5⟩ ([], []) (by decide)
  refine ⟨by decide, h.2.2.1 ⟨2024, 1, 2⟩ (by decide) (by decide), ?_⟩
  rw [h.2.2.2]
  decide

/-- C10.  Neither a card rectangle nor a duration band ever starts left of
`LEFT_MARGIN + 6` pixels: event geometry stays out of the place-label
column. -/
theorem C10_left_margin (events : List Event) (places : List Place)
    (selChars : List String) (z : ℚ) (c : Card)
    (hc : c ∈ refreshCards events places selChars z) :
    LEFT_MARGIN + 6 ≤ c.left ∧
    ∀ q, c.band = some q → LEFT_MARGIN + 6 ≤ q.1 := by
  obtain ⟨dv, ds, hd, hc⟩ := mem_refreshCards events places selChars z c hc
  refine layoutAll_forall ⟨lod z, places, selChars, ds.foldl min dv - 1⟩ events
    (fun c => LEFT_MARGIN + 6 ≤ c.left ∧
      ∀ q, c.band = some q → LEFT_MARGIN + 6 ≤ q.1)
    ?_ c hc
  intro i ev sdt hmem hparse row idx
  constructor
  · rw [mkCard_left]
    exact le_max_left _ _
  · intro q hq
    rw [mkCard_band] at hq
    split_ifs at hq
    rw [Option.some.injEq] at hq
    rw [← hq]
    exact le_max_left _ _

/-- C10 witness: the margin bound at the concrete multi-day event's card. -/
theorem C10_witness :
    c10card ∈ refreshCards [longEv] [castle] [] 1 ∧
    LEFT_MARGIN + 6 ≤ c10card.left :=
  ⟨by decide, (C10_left_margin [longEv] [castle] [] 1 c10card (by decide)).1⟩

end Theorems

end Timeline
